import Mathlib

/-!
Shallow embedding of the c4core formatting header (src/unnamed/part_000,
c4/format.hpp): the variadic serialize engines cat, catsep and format, their
parse mirrors uncat, uncatsep and unformat, the trimmed-view shapes cat_sub,
catsep_sub and format_sub, the growth adapter catrs, and the value wrappers
fmt::boolalpha_ and fmt::raw_wrapper_.

Buffers are lists of characters.  A destination buffer of length L is
modelled as the prefix of a memory list mem, with L ≤ mem.length, so that a
write past offset L would be observable as a change of mem at an index ≥ L.
A variadic argument pack is modelled as a list over the single-value
customization point; heterogeneous packs embed through a sum type.  A
serializer (the to_chars customization point) is a function from the current
contents of the destination view to the required size and the new contents of
the view.  A parser (the from_chars_first customization point) is a function
from the input and the current value of the output variable to the new value
of the variable and the consumed count, with none standing for the not-found
sentinel csubstr::npos.
-/

namespace C4

/-- A single-value serializer: models the to_chars customization point.  It
receives the contents of the destination view and returns the required size
together with the new contents of the view (of the same length). -/
def Writer : Type := List Char → Nat × List Char

/-- The canonical required size of a writer: its result on the empty view. -/
def wreq (w : Writer) : Nat := (w []).1

/-- The canonical full output of a writer: what it writes into a view of
exactly the required size. -/
def wout (w : Writer) : List Char := (w (List.replicate (wreq w) ' ')).2

/-- The sizing contract of the customization point (spec section 4.1 and the
exact-size property of section 8): the view length is preserved, the required
size does not depend on the view contents or length, characters at offsets at
or past the required size are never written, and the written output is
determined whenever the view is large enough to hold it. -/
structure WOk (w : Writer) : Prop where
  len_eq : ∀ b, (w b).2.length = b.length
  req_const : ∀ b, (w b).1 = wreq w
  untouched : ∀ b, (w b).2.drop (wreq w) = b.drop (wreq w)
  det : ∀ b b', wreq w ≤ b.length → wreq w ≤ b'.length →
      (w b).2.take (wreq w) = (w b').2.take (wreq w)

/-- Overwrite the front of view b with string s, truncated to the view: the
side effect of a contract-abiding single-value write of text s. -/
def writeInto (s b : List Char) : List Char :=
  s.take b.length ++ b.drop (min b.length s.length)

/-- Modelled from the spec: the single-value write for a plain string value
(the to_chars overload for csubstr, declared in c4/charconv.hpp which is not
part of src/).  Per spec section 4.1 it copies the characters verbatim,
truncated to the view, and always returns the full text length as the
required size. -/
def strWriter (s : List Char) : Writer := fun b => (s.length, writeInto s b)

/-- The cat engine (format.hpp lines 320-342) over a list of writers, run at
the view that starts at offset off and has length len inside memory mem.
Mirrors the source: num = to_chars(buf, a); buf = buf.len >= num ?
buf.sub(num) : substr(); num += cat(buf, more...); return num. -/
def cat : List Writer → List Char → Nat → Nat → Nat × List Char
  | [], mem, _, _ => (0, mem)
  | w :: ws, mem, off, len =>
    let r := w ((mem.drop off).take len)
    let mem1 := mem.take off ++ r.2 ++ mem.drop (off + len)
    let nxt : Nat × Nat := if len ≥ r.1 then (off + r.1, len - r.1) else (off, 0)
    let rest := cat ws mem1 nxt.1 nxt.2
    (r.1 + rest.1, rest.2)

/-- The total required size of a pack: sum of the writers' required sizes. -/
def catReq (ws : List Writer) : Nat := (ws.map wreq).sum

/-- The canonical full output of a pack: the writers' outputs back to back. -/
def catOut (ws : List Writer) : List Char := (ws.map wout).flatten

/-- The detail::catsep_more helper (format.hpp lines 396-407): for each
remaining argument, write the separator and then the argument, threading the
view exactly like cat does. -/
def catsep_more (sepw : Writer) : List Writer → List Char → Nat → Nat → Nat × List Char
  | [], mem, _, _ => (0, mem)
  | w :: ws, mem, off, len =>
    let r1 := sepw ((mem.drop off).take len)
    let mem1 := mem.take off ++ r1.2 ++ mem.drop (off + len)
    let n1 : Nat × Nat := if len ≥ r1.1 then (off + r1.1, len - r1.1) else (off, 0)
    let r2 := w ((mem1.drop n1.1).take n1.2)
    let mem2 := mem1.take n1.1 ++ r2.2 ++ mem1.drop (n1.1 + n1.2)
    let n2 : Nat × Nat := if n1.2 ≥ r2.1 then (n1.1 + r2.1, n1.2 - r2.1) else (n1.1, 0)
    let rest := catsep_more sepw ws mem2 n2.1 n2.2
    (r1.1 + r2.1 + rest.1, rest.2)

/-- The catsep engine (format.hpp lines 443-450): write the first argument
with no separator, then separator-argument pairs via catsep_more. -/
def catsep (sepw w0 : Writer) (ws : List Writer) (mem : List Char) (off len : Nat) :
    Nat × List Char :=
  let r := w0 ((mem.drop off).take len)
  let mem1 := mem.take off ++ r.2 ++ mem.drop (off + len)
  let nxt : Nat × Nat := if len ≥ r.1 then (off + r.1, len - r.1) else (off, 0)
  let rest := catsep_more sepw ws mem1 nxt.1 nxt.2
  (r.1 + rest.1, rest.2)

/-- The writer sequence catsep effectively runs: separator before every
argument of the tail. -/
def sepInterleave (sepw : Writer) : List Writer → List Writer
  | [] => []
  | w :: ws => sepw :: w :: sepInterleave sepw ws

/-- The open-brace character of the placeholder token. -/
def braceO : Char := Char.ofNat 123

/-- The close-brace character of the placeholder token. -/
def braceC : Char := Char.ofNat 125

/-- First index of the two-character placeholder token in a template: models
csubstr.find applied to the placeholder (format.hpp lines 514 and 562). -/
def findFmt : List Char → Option Nat
  | [] => none
  | [_] => none
  | c1 :: c2 :: rest =>
    if c1 = braceO ∧ c2 = braceC then some 0
    else match findFmt (c2 :: rest) with
      | none => none
      | some n => some (n + 1)

/-- The format engine (format.hpp lines 488-528): find the placeholder, copy
the text before it, write the next argument, recurse on the template rest;
with no placeholder or no argument left, copy the whole remaining template
(so unmatched placeholders are emitted literally and extra arguments are
silently dropped). -/
def format : List Char → List Writer → List Char → Nat → Nat → Nat × List Char
  | fmtStr, [], mem, off, len =>
    let r := strWriter fmtStr ((mem.drop off).take len)
    (r.1, mem.take off ++ r.2 ++ mem.drop (off + len))
  | fmtStr, w :: ws, mem, off, len =>
    match findFmt fmtStr with
    | none =>
      let r := strWriter fmtStr ((mem.drop off).take len)
      (r.1, mem.take off ++ r.2 ++ mem.drop (off + len))
    | some pos =>
      let r1 := strWriter (fmtStr.take pos) ((mem.drop off).take len)
      let mem1 := mem.take off ++ r1.2 ++ mem.drop (off + len)
      let n1 : Nat × Nat := if len ≥ r1.1 then (off + r1.1, len - r1.1) else (off, 0)
      let r2 := w ((mem1.drop n1.1).take n1.2)
      let mem2 := mem1.take n1.1 ++ r2.2 ++ mem1.drop (n1.1 + n1.2)
      let n2 : Nat × Nat := if n1.2 ≥ r2.1 then (n1.1 + r2.1, n1.2 - r2.1) else (n1.1, 0)
      let rest := format (fmtStr.drop (pos + 2)) ws mem2 n2.1 n2.2
      (r1.1 + r2.1 + rest.1, rest.2)

/-- The writer sequence the format engine effectively runs: literal spans as
string writers interleaved positionally with the argument writers, and the
whole remaining template as a final literal. -/
def fmtWriters : List Char → List Writer → List Writer
  | fmtStr, [] => [strWriter fmtStr]
  | fmtStr, w :: ws =>
    match findFmt fmtStr with
    | none => [strWriter fmtStr]
    | some pos => strWriter (fmtStr.take pos) :: w :: fmtWriters (fmtStr.drop (pos + 2)) ws

/-- The trimmed-view shape cat_sub (format.hpp lines 346-352): run cat and
return the view of the first min(sz, buf.len) characters.

Modelled from the spec: the C4_CHECK macro used on line 350 comes from
c4/error.hpp, which is not part of src/.  Per spec section 7, an insufficient
buffer is never an exception or abort and is signaled only through the
returned required size, so the check is modelled as a recorded diagnostic
bit (true iff the result fit) that does not interrupt the call. -/
def cat_sub (ws : List Writer) (mem : List Char) : Bool × List Char :=
  let r := cat ws mem 0 mem.length
  (decide (r.1 ≤ mem.length), r.2.take (min r.1 mem.length))

/-- The trimmed-view shape catsep_sub (format.hpp lines 455-461), modelled
like cat_sub (same C4_CHECK note). -/
def catsep_sub (sepw w0 : Writer) (ws : List Writer) (mem : List Char) : Bool × List Char :=
  let r := catsep sepw w0 ws mem 0 mem.length
  (decide (r.1 ≤ mem.length), r.2.take (min r.1 mem.length))

/-- The trimmed-view shape format_sub (format.hpp lines 534-540), modelled
like cat_sub (same C4_CHECK note). -/
def format_sub (fmtStr : List Char) (ws : List Writer) (mem : List Char) : Bool × List Char :=
  let r := format fmtStr ws mem 0 mem.length
  (decide (r.1 ≤ mem.length), r.2.take (min r.1 mem.length))

/-- Resizing of the caller-owned container: keep the prefix, value-initialize
any new characters (the resize of a char-owning container such as
std::string or std::vector of char). -/
def resizeTo (l : List Char) (n : Nat) : List Char :=
  l.take n ++ List.replicate (n - l.length) (Char.ofNat 0)

/-- One iteration of the catrs loop body (format.hpp lines 605-616): view the
whole container, run cat, resize the container to the returned required
size.  Returns the required size and the resized container. -/
def catrsStep (ws : List Writer) (cont : List Char) : Nat × List Char :=
  let r := cat ws cont 0 cont.length
  (r.1, resizeTo r.2 r.1)

/-- The catrs retry loop (format.hpp lines 605-616): run the body and jump
back to retry while the required size exceeded the buffer that was used.
The fuel argument is only a termination bound for the shallow embedding;
the second component counts the cat invocations performed. -/
def catrsLoop (ws : List Writer) : Nat → List Char → Option (List Char × Nat)
  | 0, _ => none
  | fuel + 1, cont =>
    let r := catrsStep ws cont
    if r.1 > cont.length then
      match catrsLoop ws fuel r.2 with
      | none => none
      | some (c, k) => some (c, k + 1)
    else
      some (r.2, 1)

/-- The overwrite-mode growth adapter catrs, as the fueled retry loop. -/
def catrs (ws : List Writer) (fuel : Nat) (cont : List Char) : Option (List Char × Nat) :=
  catrsLoop ws fuel cont

/-- A single-value parser: models the from_chars_first customization point.
It receives the input view and the current value of the output variable and
returns the new value of the variable together with the consumed count; none
stands for the not-found sentinel csubstr::npos.  Keeping the old value as
an input lets a failing parse scribble on its own output variable, as a C++
from_chars_first may. -/
def Reader (α : Type) : Type := List Char → α → α × Option Nat

/-- The view advance used by all parse engines: buf.len >= out ?
buf.sub(out) : substr(). -/
def subAdvance (buf : List Char) (out : Nat) : List Char :=
  if buf.length ≥ out then buf.drop out else []

/-- The uncat engine (format.hpp lines 359-381) over a list of parser and
initial-variable-value pairs.  Returns the consumed count (none for the
sentinel), the final values of all the output variables, and the remaining
input view.  Mirrors the source: out = from_chars_first(buf, &a); if npos
return npos; buf = buf.len >= out ? buf.sub(out) : substr(); num =
uncat(buf, more...); if npos return npos; return out + num. -/
def uncat {α : Type} : List (Reader α × α) → List Char → Option Nat × List α × List Char
  | [], buf => (some 0, [], buf)
  | (rd, v) :: rest, buf =>
    let ra := rd buf v
    match ra.2 with
    | none => (none, ra.1 :: rest.map Prod.snd, buf)
    | some out =>
      let rest1 := uncat rest (subAdvance buf out)
      match rest1.1 with
      | none => (none, ra.1 :: rest1.2.1, rest1.2.2)
      | some num => (some (out + num), ra.1 :: rest1.2.1, rest1.2.2)

/-- The detail::uncatsep_more helper (format.hpp lines 409-429): for each
remaining argument, parse a separator into the sep variable and then parse
the argument, aborting with the sentinel on either failure.  Returns the
consumed count, the final sep value, the final argument values, and the
remaining input. -/
def uncatsep_more {α σ : Type} (rsep : Reader σ) :
    List (Reader α × α) → List Char → σ → Option Nat × σ × List α × List Char
  | [], buf, sep => (some 0, sep, [], buf)
  | (rd, v) :: rest, buf, sep =>
    let rs := rsep buf sep
    match rs.2 with
    | none => (none, rs.1, v :: rest.map Prod.snd, buf)
    | some ret1 =>
      let buf1 := subAdvance buf ret1
      let ra := rd buf1 v
      match ra.2 with
      | none => (none, rs.1, ra.1 :: rest.map Prod.snd, buf1)
      | some ret2 =>
        let rest1 := uncatsep_more rsep rest (subAdvance buf1 ret2) rs.1
        match rest1.1 with
        | none => (none, rest1.2.1, ra.1 :: rest1.2.2.1, rest1.2.2.2)
        | some num => (some (ret1 + ret2 + num), rest1.2.1, ra.1 :: rest1.2.2.1, rest1.2.2.2)

/-- The uncatsep engine (format.hpp lines 469-479): parse the first argument
with no separator, then separator-argument pairs via uncatsep_more. -/
def uncatsep {α σ : Type} (rsep : Reader σ) (rd : Reader α) (v : α)
    (rest : List (Reader α × α)) (buf : List Char) (sep : σ) :
    Option Nat × σ × List α × List Char :=
  let ra := rd buf v
  match ra.2 with
  | none => (none, sep, ra.1 :: rest.map Prod.snd, buf)
  | some ret =>
    let more := uncatsep_more rsep rest (subAdvance buf ret) sep
    match more.1 with
    | none => (none, more.2.1, ra.1 :: more.2.2.1, more.2.2.2)
    | some num => (some (ret + num), more.2.1, ra.1 :: more.2.2.1, more.2.2.2)

/-- The unformat engine (format.hpp lines 547-578): at each placeholder,
skip the preceding literal span of the template (consuming its length from
the input without comparing), parse the next argument, recurse on the
template rest; with no placeholder or no argument left, return 0 and leave
everything untouched.  Returns the consumed count, the final argument
values, the remaining input and the remaining template. -/
def unformat {α : Type} :
    List (Reader α × α) → List Char → List Char → Option Nat × List α × List Char × List Char
  | [], buf, fmtStr => (some 0, [], buf, fmtStr)
  | (rd, v) :: rest, buf, fmtStr =>
    match findFmt fmtStr with
    | none => (some 0, v :: rest.map Prod.snd, buf, fmtStr)
    | some pos =>
      let buf1 := subAdvance buf pos
      let ra := rd buf1 v
      match ra.2 with
      | none => (none, ra.1 :: rest.map Prod.snd, buf1, fmtStr.drop (pos + 2))
      | some num =>
        let rest1 := unformat rest (subAdvance buf1 num) (fmtStr.drop (pos + 2))
        match rest1.1 with
        | none => (none, ra.1 :: rest1.2.1, rest1.2.2)
        | some m => (some (pos + num + m), ra.1 :: rest1.2.1, rest1.2.2)

/-- One argument of a round-trip law instance: the text form of a value (its
to_chars output), the parser of its type, the value written, and the initial
value of the fresh output variable it is read back into. -/
structure RTArg (α : Type) where
  toStr : α → List Char
  rd : Reader α
  val : α
  v0 : α

/-- Round-trip consistency of one write/read pair at the written value, as
required for the from_chars_first shape: reading any input that starts with
the written text recovers the value, consumes exactly the written length and
does not depend on the previous variable value. -/
def RTOk {α : Type} (a : RTArg α) : Prop :=
  ∀ rest v, a.rd (a.toStr a.val ++ rest) v = (a.val, some (a.toStr a.val).length)

/-- The concatenated text of a tuple of round-trip arguments. -/
def catStrs {α : Type} (args : List (RTArg α)) : List Char :=
  (args.map fun a => a.toStr a.val).flatten

/-- The fmt::boolalpha_ wrapper (format.hpp lines 37-43): the wrapped value
is normalized to a bool at construction time. -/
structure boolalpha_ where
  val : Bool
  strict_read : Bool

/-- The fmt::boolalpha constructor (lines 40 and 45-49): val(val_ ? true :
false).  The C++ contextual conversion of a value of arbitrary type to bool
is modelled by the truthiness function truthy. -/
def boolalpha {α : Type} (truthy : α → Bool) (v : α) (strict : Bool) : boolalpha_ :=
  ⟨if truthy v then true else false, strict⟩

/-- The text written by fmt::to_chars for boolalpha_ (lines 52-56):
fmt.val ? "true" : "false". -/
def boolalphaStr (f : boolalpha_) : List Char :=
  if f.val then String.toList "true" else String.toList "false"

/-- The fmt::to_chars overload for boolalpha_ (lines 52-56) as a writer:
to_chars(buf, fmt.val ? "true" : "false"). -/
def boolalphaWriter (f : boolalpha_) : Writer := strWriter (boolalphaStr f)

/-- The asserted alignment condition of fmt::raw_wrapper_ (line 255):
alignment > 0 && (alignment & (alignment - 1)) == 0. -/
def alignCondition (alignment : Nat) : Bool :=
  decide (0 < alignment) && decide (alignment &&& (alignment - 1) = 0)

/-- The fmt::raw_wrapper_ value (format.hpp lines 245-257): a blob (modelled
as its byte list) plus the required alignment. -/
structure raw_wrapper_ where
  data : List Nat
  alignment : Nat

/-- Modelled from the spec: the C4_ASSERT_MSG on line 255 comes from
c4/error.hpp, which is not part of src/.  Per spec sections 4.2 and 7 a
non-power-of-two alignment is a precondition violation reported at the point
of construction (fail fast, not recoverable), so construction is modelled as
returning none exactly when the asserted condition fails, before the blob is
inspected. -/
def mkRawWrapper (data : List Nat) (alignment : Nat) : Option raw_wrapper_ :=
  if alignCondition alignment then some ⟨data, alignment⟩ else none

/-- A concrete parser for witnesses: consumes one character and stores its
code, failing on empty input. -/
def rdOne : Reader Nat := fun buf v =>
  match buf with
  | [] => (v, none)
  | c :: _ => (c.toNat, some 1)

/-- A concrete parser for witnesses: always fails, scribbling on its output
variable first (as a C++ from_chars_first is allowed to). -/
def rdFail : Reader Nat := fun _ v => (v + 100, none)

/-- A concrete decimal-digit parser for the round-trip witnesses. -/
def rdDigit : Reader Nat := fun buf v =>
  match buf with
  | [] => (v, none)
  | c :: _ => if 48 ≤ c.toNat ∧ c.toNat < 58 then (c.toNat - 48, some 1) else (v, none)

/-- A concrete one-digit round-trip argument for the round-trip witnesses. -/
def rtDigit (k : Nat) : RTArg Nat :=
  ⟨fun n => [Char.ofNat (48 + n)], rdDigit, k, 0⟩

/-- The exact-size property of one serialize engine: run mem L executes the
engine with the destination buffer being the length-L prefix of mem.  The
engine must return the same required size R for every L and every memory,
keep the memory length, write no byte at or past offset L, and produce
byte-identical output whenever the buffer holds at least R characters. -/
def EngineExact (run : List Char → Nat → Nat × List Char) (R : Nat) : Prop :=
  (∀ mem L, L ≤ mem.length → (run mem L).1 = R)
  ∧ (∀ mem L, L ≤ mem.length → (run mem L).2.length = mem.length)
  ∧ (∀ mem L, L ≤ mem.length → (run mem L).2.drop L = mem.drop L)
  ∧ (∀ mem L mem' L', L ≤ mem.length → L' ≤ mem'.length → R ≤ L → R ≤ L' →
      (run mem L).2.take R = (run mem' L').2.take R)

/-- The concrete example template of the format claims: the placeholder
token written after "the ", after " drank " and after a space. -/
def tmplBeer : List Char :=
  String.toList "the " ++ [braceO, braceC] ++ String.toList " drank " ++ [braceO, braceC]
    ++ [' '] ++ [braceO, braceC]

/-- The concrete example arguments of the format claims. -/
def beerWriters : List Writer :=
  [strWriter (String.toList "partier"), strWriter (String.toList "5"),
   strWriter (String.toList "beers")]

theorem writeInto_length (s b : List Char) : (writeInto s b).length = b.length := by
  simp only [writeInto, List.length_append, List.length_take, List.length_drop]
  omega

theorem wreq_strWriter (s : List Char) : wreq (strWriter s) = s.length := rfl

theorem strWriter_wok (s : List Char) : WOk (strWriter s) := by
  refine ⟨fun b => writeInto_length s b, fun b => rfl, ?_, ?_⟩
  · intro b
    show (writeInto s b).drop s.length = b.drop s.length
    rcases le_or_lt s.length b.length with hsb | hbs
    · have h1 : s.take b.length = s := List.take_of_length_le hsb
      have h2 : min b.length s.length = s.length := by omega
      rw [writeInto, h1, h2, List.drop_left' rfl]
    · have h2 : min b.length s.length = b.length := by omega
      rw [writeInto, h2, List.drop_length, List.append_nil]
      rw [List.drop_of_length_le (by rw [List.length_take]; omega),
        List.drop_of_length_le (by omega)]
  · intro b b' hb hb'
    show (writeInto s b).take s.length = (writeInto s b').take s.length
    have h1 : s.take b.length = s := List.take_of_length_le hb
    have h1' : s.take b'.length = s := List.take_of_length_le hb'
    rw [writeInto, writeInto, h1, h1',
      List.take_append_of_le_length le_rfl, List.take_append_of_le_length le_rfl]

theorem wout_strWriter (s : List Char) : wout (strWriter s) = s := by
  show writeInto s (List.replicate s.length ' ') = s
  simp [writeInto]

theorem wout_length (w : Writer) (hw : WOk w) : (wout w).length = wreq w := by
  rw [wout, hw.len_eq, List.length_replicate]

theorem catOut_length (ws : List Writer) (h : ∀ w ∈ ws, WOk w) :
    (catOut ws).length = catReq ws := by
  induction ws with
  | nil => rfl
  | cons w ws ih =>
    have hw : WOk w := h w (by simp)
    have hws : ∀ w' ∈ ws, WOk w' := fun w' hw' => h w' (by simp [hw'])
    simp [catOut, catReq] at ih ⊢
    rw [wout_length w hw, ih hws]

/-- Fully-fitting writes are canonical: on a view with room for the required
size, the output prefix of the required length is the canonical output. -/
theorem wout_take (w : Writer) (hw : WOk w) (b : List Char) (hb : wreq w ≤ b.length) :
    (w b).2.take (wreq w) = wout w := by
  have h := hw.det b (List.replicate (wreq w) ' ') hb (by simp)
  rw [h, wout]
  have : (w (List.replicate (wreq w) ' ')).2.length = wreq w := by
    rw [hw.len_eq, List.length_replicate]
  conv_rhs => rw [← List.take_length (w (List.replicate (wreq w) ' ')).2]
  rw [this]

/-- Core property of the cat engine, by one induction: the returned required
size is the canonical sum (independent of the view), the memory keeps its
length, nothing before the view start or at or past the view end is written,
and when the view is large enough the view prefix of the required length is
the canonical output. -/
theorem cat_spec (ws : List Writer) (h : ∀ w ∈ ws, WOk w) :
    ∀ mem off len, off + len ≤ mem.length →
      (cat ws mem off len).1 = catReq ws
    ∧ (cat ws mem off len).2.length = mem.length
    ∧ (cat ws mem off len).2.take off = mem.take off
    ∧ (cat ws mem off len).2.drop (off + len) = mem.drop (off + len)
    ∧ (catReq ws ≤ len → ((cat ws mem off len).2.drop off).take (catReq ws) = catOut ws) := by
  induction ws with
  | nil =>
    intro mem off len _
    exact ⟨rfl, rfl, rfl, rfl, fun _ => by simp [cat, catOut, catReq]⟩
  | cons w ws ih =>
    intro mem off len hle
    have hw : WOk w := h w (by simp)
    have hws : ∀ w' ∈ ws, WOk w' := fun w' hw' => h w' (by simp [hw'])
    set view := (mem.drop off).take len with hview
    have hviewlen : view.length = len := by
      simp only [hview, List.length_take, List.length_drop]
      omega
    have hr1 : (w view).1 = wreq w := hw.req_const view
    have hr2len : (w view).2.length = len := by rw [hw.len_eq]; exact hviewlen
    set out := (w view).2 with hout
    set mem1 := mem.take off ++ out ++ mem.drop (off + len) with hmem1
    have hofflen : (mem.take off).length = off := by
      rw [List.length_take]
      omega
    have hmem1len : mem1.length = mem.length := by
      simp only [hmem1, List.length_append, List.length_take, List.length_drop, hr2len]
      omega
    have hm1take : mem1.take off = mem.take off := by
      rw [hmem1, List.append_assoc, List.take_append_of_le_length (by omega),
        List.take_take, min_self]
    have hm1dropoff : mem1.drop off = out ++ mem.drop (off + len) := by
      rw [hmem1, List.append_assoc, List.drop_left' hofflen]
    have hm1drop : mem1.drop (off + len) = mem.drop (off + len) := by
      rw [hmem1]
      exact List.drop_left'
        (by simp only [List.length_append, List.length_take, hr2len]; omega)
    have hreqcons : catReq (w :: ws) = wreq w + catReq ws := by simp [catReq]
    have houtcons : catOut (w :: ws) = wout w ++ catOut ws := by simp [catOut]
    by_cases hfit : wreq w ≤ len
    · have hstep : cat (w :: ws) mem off len
          = (wreq w + (cat ws mem1 (off + wreq w) (len - wreq w)).1,
             (cat ws mem1 (off + wreq w) (len - wreq w)).2) := by
        simp only [cat, ← hview, hr1, ← hout, ← hmem1, ge_iff_le, if_pos hfit]
      obtain ⟨ih1, ih2, ih3, ih4, ih5⟩ :=
        ih hws mem1 (off + wreq w) (len - wreq w) (by omega)
      rw [hstep]
      refine ⟨by rw [hreqcons, ih1], by rw [ih2, hmem1len], ?_, ?_, ?_⟩
      · have := congrArg (List.take off) ih3
        rw [List.take_take, List.take_take, min_eq_left (by omega)] at this
        rw [this, hm1take]
      · have heq : off + wreq w + (len - wreq w) = off + len := by omega
        rw [heq] at ih4
        rw [ih4, hm1drop]
      · intro hR
        rw [hreqcons] at hR ⊢
        rw [houtcons, List.take_add]
        have hsplit2 : (((cat ws mem1 (off + wreq w) (len - wreq w)).2.drop off).drop (wreq w))
            = (cat ws mem1 (off + wreq w) (len - wreq w)).2.drop (off + wreq w) := by
          rw [List.drop_drop]
        refine congrArg₂ (· ++ ·) ?_ ?_
        · have hdt : ((cat ws mem1 (off + wreq w) (len - wreq w)).2.drop off).take (wreq w)
              = ((cat ws mem1 (off + wreq w) (len - wreq w)).2.take (off + wreq w)).drop off := by
            rw [List.drop_take]
            congr 1
            omega
          rw [hdt, ih3]
          have : (mem1.take (off + wreq w)).drop off = (mem1.drop off).take (wreq w) := by
            rw [List.drop_take]
            congr 1
            omega
          rw [this, hm1dropoff, List.take_append_of_le_length (by omega)]
          exact wout_take w hw view (by omega)
        · rw [hsplit2, ih5 (by omega)]
    · have hstep : cat (w :: ws) mem off len
          = (wreq w + (cat ws mem1 off 0).1, (cat ws mem1 off 0).2) := by
        simp only [cat, ← hview, hr1, ← hout, ← hmem1, ge_iff_le, if_neg hfit]
      obtain ⟨ih1, ih2, ih3, ih4, ih5⟩ := ih hws mem1 off 0 (by omega)
      rw [hstep]
      rw [Nat.add_zero] at ih4
      refine ⟨by rw [hreqcons, ih1], by rw [ih2, hmem1len], ?_, ?_, ?_⟩
      · rw [ih3, hm1take]
      · have h1 := congrArg (List.drop len) ih4
        rw [List.drop_drop, List.drop_drop] at h1
        rw [h1, hm1drop]
      · intro hR
        exfalso
        rw [hreqcons] at hR
        omega

theorem catsep_more_eq_cat (sepw : Writer) :
    ∀ (ws : List Writer) (mem : List Char) (off len : Nat),
      catsep_more sepw ws mem off len = cat (sepInterleave sepw ws) mem off len := by
  intro ws
  induction ws with
  | nil => intro mem off len; rfl
  | cons w ws ih =>
    intro mem off len
    simp only [catsep_more, sepInterleave, cat, ih]
    rw [Nat.add_assoc]

theorem catsep_eq_cat (sepw w0 : Writer) (ws : List Writer) (mem : List Char) (off len : Nat) :
    catsep sepw w0 ws mem off len = cat (w0 :: sepInterleave sepw ws) mem off len := by
  simp only [catsep, cat, catsep_more_eq_cat]

theorem format_eq_cat :
    ∀ (ws : List Writer) (fmtStr : List Char) (mem : List Char) (off len : Nat),
      format fmtStr ws mem off len = cat (fmtWriters fmtStr ws) mem off len := by
  intro ws
  induction ws with
  | nil =>
    intro fmtStr mem off len
    simp only [format, fmtWriters, cat, Nat.add_zero]
  | cons w ws ih =>
    intro fmtStr mem off len
    cases hf : findFmt fmtStr with
    | none => simp only [format, fmtWriters, hf, cat, Nat.add_zero]
    | some pos =>
      simp only [format, fmtWriters, hf, cat, ih]
      rw [Nat.add_assoc]

theorem fmtWriters_wok (ws : List Writer) (h : ∀ w ∈ ws, WOk w) :
    ∀ fmtStr, ∀ w' ∈ fmtWriters fmtStr ws, WOk w' := by
  induction ws with
  | nil =>
    intro fmtStr w' hw'
    simp only [fmtWriters, List.mem_singleton] at hw'
    exact hw' ▸ strWriter_wok fmtStr
  | cons w ws ih =>
    intro fmtStr w' hw'
    have hw : WOk w := h w (by simp)
    have hws : ∀ x ∈ ws, WOk x := fun x hx => h x (by simp [hx])
    cases hf : findFmt fmtStr with
    | none =>
      rw [fmtWriters, hf] at hw'
      simp only [List.mem_singleton] at hw'
      exact hw' ▸ strWriter_wok fmtStr
    | some pos =>
      rw [fmtWriters, hf] at hw'
      simp only [List.mem_cons] at hw'
      rcases hw' with h1 | h1 | h1
      · exact h1 ▸ strWriter_wok (fmtStr.take pos)
      · exact h1 ▸ hw
      · exact ih hws (fmtStr.drop (pos + 2)) w' h1

theorem sepInterleave_wok (sepw : Writer) (hsep : WOk sepw) (ws : List Writer)
    (h : ∀ w ∈ ws, WOk w) : ∀ w' ∈ sepInterleave sepw ws, WOk w' := by
  induction ws with
  | nil => intro w' hw'; simp [sepInterleave] at hw'
  | cons w ws ih =>
    intro w' hw'
    rw [sepInterleave] at hw'
    simp only [List.mem_cons] at hw'
    rcases hw' with h1 | h1 | h1
    · exact h1 ▸ hsep
    · exact h1 ▸ h w (by simp)
    · exact ih (fun x hx => h x (by simp [hx])) w' h1

theorem uncat_cons_none {α : Type} (rd : Reader α) (v : α) (rest : List (Reader α × α))
    (buf : List Char) (hra : (rd buf v).2 = none) :
    uncat ((rd, v) :: rest) buf = (none, (rd buf v).1 :: rest.map Prod.snd, buf) := by
  simp only [uncat, hra]

theorem uncat_cons_some {α : Type} (rd : Reader α) (v : α) (rest : List (Reader α × α))
    (buf : List Char) (out : Nat) (hra : (rd buf v).2 = some out) :
    uncat ((rd, v) :: rest) buf
      = ((uncat rest (subAdvance buf out)).1.map fun m => out + m,
         (rd buf v).1 :: (uncat rest (subAdvance buf out)).2.1,
         (uncat rest (subAdvance buf out)).2.2) := by
  simp only [uncat, hra]
  cases h : (uncat rest (subAdvance buf out)).1 <;> simp [h]

theorem uncat_vars_length {α : Type} :
    ∀ (args : List (Reader α × α)) (buf : List Char),
      (uncat args buf).2.1.length = args.length := by
  intro args
  induction args with
  | nil => intro buf; rfl
  | cons hd rest ih =>
    intro buf
    obtain ⟨rd, v⟩ := hd
    cases hra : (rd buf v).2 with
    | none => rw [uncat_cons_none rd v rest buf hra]; simp
    | some out => rw [uncat_cons_some rd v rest buf out hra]; simp [ih]

/-- Short-circuit of uncat: if every parse up to position k succeeds and the
parse at position k returns the sentinel, the whole run returns the sentinel
and the output variables past position k keep their initial values. -/
theorem uncat_fail_tail {α : Type} (rd : Reader α) (v : α) (post : List (Reader α × α)) :
    ∀ (pre : List (Reader α × α)) (buf : List Char) (n : Nat),
      (uncat pre buf).1 = some n →
      (rd (uncat pre buf).2.2 v).2 = none →
      (uncat (pre ++ (rd, v) :: post) buf).1 = none
      ∧ (uncat (pre ++ (rd, v) :: post) buf).2.1.drop (pre.length + 1) = post.map Prod.snd := by
  intro pre
  induction pre with
  | nil =>
    intro buf n _ hfail
    simp only [uncat] at hfail
    rw [List.nil_append, uncat_cons_none rd v post buf hfail]
    simp
  | cons hd pre ih =>
    intro buf n hok hfail
    obtain ⟨rdh, vh⟩ := hd
    cases hra : (rdh buf vh).2 with
    | none =>
      rw [uncat_cons_none rdh vh pre buf hra] at hok
      exact absurd hok (by simp)
    | some out =>
      rw [uncat_cons_some rdh vh pre buf out hra] at hok hfail
      cases hrec : (uncat pre (subAdvance buf out)).1 with
      | none => rw [hrec] at hok; exact absurd hok (by simp)
      | some m =>
        simp only at hfail
        obtain ⟨h1, h2⟩ := ih (subAdvance buf out) m hrec hfail
        rw [List.cons_append, uncat_cons_some rdh vh (pre ++ (rd, v) :: post) buf out hra]
        constructor
        · rw [h1]
          rfl
        · simp only [List.length_cons]
          rw [show pre.length + 1 + 1 = (pre.length + 1) + 1 by rfl, List.drop_succ_cons]
          exact h2

theorem uncatsep_more_cons_sepfail {α σ : Type} (rsep : Reader σ) (rd : Reader α) (v : α)
    (rest : List (Reader α × α)) (buf : List Char) (sep : σ)
    (hs : (rsep buf sep).2 = none) :
    uncatsep_more rsep ((rd, v) :: rest) buf sep
      = (none, (rsep buf sep).1, v :: rest.map Prod.snd, buf) := by
  simp only [uncatsep_more, hs]

theorem uncatsep_more_cons_argfail {α σ : Type} (rsep : Reader σ) (rd : Reader α) (v : α)
    (rest : List (Reader α × α)) (buf : List Char) (sep : σ) (ret1 : Nat)
    (hs : (rsep buf sep).2 = some ret1)
    (ha : (rd (subAdvance buf ret1) v).2 = none) :
    uncatsep_more rsep ((rd, v) :: rest) buf sep
      = (none, (rsep buf sep).1, (rd (subAdvance buf ret1) v).1 :: rest.map Prod.snd,
         subAdvance buf ret1) := by
  simp only [uncatsep_more, hs, ha]

theorem uncatsep_more_cons_ok {α σ : Type} (rsep : Reader σ) (rd : Reader α) (v : α)
    (rest : List (Reader α × α)) (buf : List Char) (sep : σ) (ret1 ret2 : Nat)
    (hs : (rsep buf sep).2 = some ret1)
    (ha : (rd (subAdvance buf ret1) v).2 = some ret2) :
    uncatsep_more rsep ((rd, v) :: rest) buf sep
      = ((uncatsep_more rsep rest (subAdvance (subAdvance buf ret1) ret2) (rsep buf sep).1).1.map
           (fun m => ret1 + ret2 + m),
         (uncatsep_more rsep rest (subAdvance (subAdvance buf ret1) ret2) (rsep buf sep).1).2.1,
         (rd (subAdvance buf ret1) v).1
           :: (uncatsep_more rsep rest (subAdvance (subAdvance buf ret1) ret2) (rsep buf sep).1).2.2.1,
         (uncatsep_more rsep rest (subAdvance (subAdvance buf ret1) ret2) (rsep buf sep).1).2.2.2) := by
  simp only [uncatsep_more, hs, ha]
  cases h : (uncatsep_more rsep rest (subAdvance (subAdvance buf ret1) ret2) (rsep buf sep).1).1 <;>
    simp [h]

/-- Short-circuit of uncatsep_more when the failing sub-parse is an argument
parse: if all separator and argument parses up to the k-th pair succeed, the
k-th separator parse succeeds, and the k-th argument parse returns the
sentinel, the whole run returns the sentinel and the argument variables past
position k keep their initial values. -/
theorem uncatsep_more_fail_tail_arg {α σ : Type} (rsep : Reader σ) (rd : Reader α) (v : α)
    (post : List (Reader α × α)) :
    ∀ (pre : List (Reader α × α)) (buf : List Char) (sep : σ) (n ret1 : Nat),
      (uncatsep_more rsep pre buf sep).1 = some n →
      (rsep (uncatsep_more rsep pre buf sep).2.2.2 (uncatsep_more rsep pre buf sep).2.1).2
        = some ret1 →
      (rd (subAdvance (uncatsep_more rsep pre buf sep).2.2.2 ret1) v).2 = none →
      (uncatsep_more rsep (pre ++ (rd, v) :: post) buf sep).1 = none
      ∧ (uncatsep_more rsep (pre ++ (rd, v) :: post) buf sep).2.2.1.drop (pre.length + 1)
          = post.map Prod.snd := by
  intro pre
  induction pre with
  | nil =>
    intro buf sep n ret1 _ hsep hfail
    simp only [uncatsep_more] at hsep hfail
    rw [List.nil_append, uncatsep_more_cons_argfail rsep rd v post buf sep _ hsep hfail]
    simp
  | cons hd pre ih =>
    intro buf sep n ret1 hok hsep hfail
    obtain ⟨rdh, vh⟩ := hd
    cases hs : (rsep buf sep).2 with
    | none =>
      rw [uncatsep_more_cons_sepfail rsep rdh vh pre buf sep hs] at hok
      exact absurd hok (by simp)
    | some r1 =>
      cases ha : (rdh (subAdvance buf r1) vh).2 with
      | none =>
        rw [uncatsep_more_cons_argfail rsep rdh vh pre buf sep r1 hs ha] at hok
        exact absurd hok (by simp)
      | some r2 =>
        rw [uncatsep_more_cons_ok rsep rdh vh pre buf sep r1 r2 hs ha] at hok hsep hfail
        simp only at hok hsep hfail
        cases hrec : (uncatsep_more rsep pre (subAdvance (subAdvance buf r1) r2) (rsep buf sep).1).1 with
        | none => rw [hrec] at hok; exact absurd hok (by simp)
        | some m =>
          obtain ⟨h1, h2⟩ := ih (subAdvance (subAdvance buf r1) r2) (rsep buf sep).1 m ret1 hrec hsep hfail
          rw [List.cons_append, uncatsep_more_cons_ok rsep rdh vh (pre ++ (rd, v) :: post) buf sep r1 r2 hs ha]
          constructor
          · rw [h1]
            rfl
          · simp only [List.length_cons]
            rw [show pre.length + 1 + 1 = (pre.length + 1) + 1 by rfl, List.drop_succ_cons]
            exact h2

/-- Short-circuit of uncatsep_more when the failing sub-parse is a separator
parse: the whole run returns the sentinel and the argument variables from
position k on keep their initial values. -/
theorem uncatsep_more_fail_tail_sep {α σ : Type} (rsep : Reader σ) (rd : Reader α) (v : α)
    (post : List (Reader α × α)) :
    ∀ (pre : List (Reader α × α)) (buf : List Char) (sep : σ) (n : Nat),
      (uncatsep_more rsep pre buf sep).1 = some n →
      (rsep (uncatsep_more rsep pre buf sep).2.2.2 (uncatsep_more rsep pre buf sep).2.1).2 = none →
      (uncatsep_more rsep (pre ++ (rd, v) :: post) buf sep).1 = none
      ∧ (uncatsep_more rsep (pre ++ (rd, v) :: post) buf sep).2.2.1.drop pre.length
          = v :: post.map Prod.snd := by
  intro pre
  induction pre with
  | nil =>
    intro buf sep n _ hsep
    simp only [uncatsep_more] at hsep
    rw [List.nil_append, uncatsep_more_cons_sepfail rsep rd v post buf sep hsep]
    simp
  | cons hd pre ih =>
    intro buf sep n hok hsep
    obtain ⟨rdh, vh⟩ := hd
    cases hs : (rsep buf sep).2 with
    | none =>
      rw [uncatsep_more_cons_sepfail rsep rdh vh pre buf sep hs] at hok
      exact absurd hok (by simp)
    | some r1 =>
      cases ha : (rdh (subAdvance buf r1) vh).2 with
      | none =>
        rw [uncatsep_more_cons_argfail rsep rdh vh pre buf sep r1 hs ha] at hok
        exact absurd hok (by simp)
      | some r2 =>
        rw [uncatsep_more_cons_ok rsep rdh vh pre buf sep r1 r2 hs ha] at hok hsep
        simp only at hok hsep
        cases hrec : (uncatsep_more rsep pre (subAdvance (subAdvance buf r1) r2) (rsep buf sep).1).1 with
        | none => rw [hrec] at hok; exact absurd hok (by simp)
        | some m =>
          obtain ⟨h1, h2⟩ := ih (subAdvance (subAdvance buf r1) r2) (rsep buf sep).1 m hrec hsep
          rw [List.cons_append, uncatsep_more_cons_ok rsep rdh vh (pre ++ (rd, v) :: post) buf sep r1 r2 hs ha]
          constructor
          · rw [h1]
            rfl
          · simp only [List.length_cons]
            rw [List.drop_succ_cons]
            exact h2

theorem unformat_cons_nofmt {α : Type} (rd : Reader α) (v : α) (rest : List (Reader α × α))
    (buf fmtStr : List Char) (hf : findFmt fmtStr = none) :
    unformat ((rd, v) :: rest) buf fmtStr = (some 0, v :: rest.map Prod.snd, buf, fmtStr) := by
  simp only [unformat, hf]

theorem unformat_cons_fail {α : Type} (rd : Reader α) (v : α) (rest : List (Reader α × α))
    (buf fmtStr : List Char) (pos : Nat) (hf : findFmt fmtStr = some pos)
    (ha : (rd (subAdvance buf pos) v).2 = none) :
    unformat ((rd, v) :: rest) buf fmtStr
      = (none, (rd (subAdvance buf pos) v).1 :: rest.map Prod.snd, subAdvance buf pos,
         fmtStr.drop (pos + 2)) := by
  simp only [unformat, hf, ha]

theorem unformat_cons_ok {α : Type} (rd : Reader α) (v : α) (rest : List (Reader α × α))
    (buf fmtStr : List Char) (pos num : Nat) (hf : findFmt fmtStr = some pos)
    (ha : (rd (subAdvance buf pos) v).2 = some num) :
    unformat ((rd, v) :: rest) buf fmtStr
      = ((unformat rest (subAdvance (subAdvance buf pos) num) (fmtStr.drop (pos + 2))).1.map
           (fun m => pos + num + m),
         (rd (subAdvance buf pos) v).1
           :: (unformat rest (subAdvance (subAdvance buf pos) num) (fmtStr.drop (pos + 2))).2.1,
         (unformat rest (subAdvance (subAdvance buf pos) num) (fmtStr.drop (pos + 2))).2.2) := by
  simp only [unformat, hf, ha]
  cases h : (unformat rest (subAdvance (subAdvance buf pos) num) (fmtStr.drop (pos + 2))).1 <;>
    simp [h]

/-- Short-circuit of unformat: if the parses at the first k placeholders
succeed, the template rest still holds a placeholder, and the parse at that
placeholder returns the sentinel, the whole run returns the sentinel and the
output variables past position k keep their initial values. -/
theorem unformat_fail_tail {α : Type} (rd : Reader α) (v : α) (post : List (Reader α × α)) :
    ∀ (pre : List (Reader α × α)) (buf fmtStr : List Char) (n pos : Nat),
      (unformat pre buf fmtStr).1 = some n →
      findFmt (unformat pre buf fmtStr).2.2.2 = some pos →
      (rd (subAdvance (unformat pre buf fmtStr).2.2.1 pos) v).2 = none →
      (unformat (pre ++ (rd, v) :: post) buf fmtStr).1 = none
      ∧ (unformat (pre ++ (rd, v) :: post) buf fmtStr).2.1.drop (pre.length + 1)
          = post.map Prod.snd := by
  intro pre
  induction pre with
  | nil =>
    intro buf fmtStr n pos _ hfmt hfail
    simp only [unformat] at hfmt hfail
    rw [List.nil_append, unformat_cons_fail rd v post buf fmtStr pos hfmt hfail]
    simp
  | cons hd pre ih =>
    intro buf fmtStr n pos hok hfmt hfail
    obtain ⟨rdh, vh⟩ := hd
    cases hf : findFmt fmtStr with
    | none =>
      rw [unformat_cons_nofmt rdh vh pre buf fmtStr hf] at hfmt
      simp only at hfmt
      exact absurd hfmt (by rw [hf]; simp)
    | some posh =>
      cases ha : (rdh (subAdvance buf posh) vh).2 with
      | none =>
        rw [unformat_cons_fail rdh vh pre buf fmtStr posh hf ha] at hok
        exact absurd hok (by simp)
      | some num =>
        rw [unformat_cons_ok rdh vh pre buf fmtStr posh num hf ha] at hok hfmt hfail
        simp only at hok hfmt hfail
        cases hrec : (unformat pre (subAdvance (subAdvance buf posh) num) (fmtStr.drop (posh + 2))).1 with
        | none => rw [hrec] at hok; exact absurd hok (by simp)
        | some m =>
          obtain ⟨h1, h2⟩ :=
            ih (subAdvance (subAdvance buf posh) num) (fmtStr.drop (posh + 2)) m pos hrec hfmt hfail
          rw [List.cons_append, unformat_cons_ok rdh vh (pre ++ (rd, v) :: post) buf fmtStr posh num hf ha]
          constructor
          · rw [h1]
            rfl
          · simp only [List.length_cons]
            rw [show pre.length + 1 + 1 = (pre.length + 1) + 1 by rfl, List.drop_succ_cons]
            exact h2

/-- Reading a buffer that starts with the concatenated texts recovers every
value, consuming exactly the concatenation, for any junk after it. -/
theorem uncat_of_concat {α : Type} :
    ∀ (args : List (RTArg α)), (∀ a ∈ args, RTOk a) →
      ∀ junk, uncat (args.map fun a => (a.rd, a.v0)) (catStrs args ++ junk)
        = (some (catStrs args).length, args.map fun a => a.val, junk) := by
  intro args
  induction args with
  | nil => intro _ junk; simp [uncat, catStrs]
  | cons a args ih =>
    intro h junk
    have ha : RTOk a := h a (by simp)
    have hargs : ∀ x ∈ args, RTOk x := fun x hx => h x (by simp [hx])
    have hbuf : catStrs (a :: args) ++ junk = a.toStr a.val ++ (catStrs args ++ junk) := by
      simp [catStrs, List.append_assoc]
    have hread := ha (catStrs args ++ junk) a.v0
    have hsub : subAdvance (a.toStr a.val ++ (catStrs args ++ junk)) (a.toStr a.val).length
        = catStrs args ++ junk := by
      rw [subAdvance, if_pos (by simp), List.drop_left]
    simp only [List.map_cons, hbuf]
    rw [uncat_cons_some a.rd a.v0 (args.map fun x => (x.rd, x.v0))
      (a.toStr a.val ++ (catStrs args ++ junk)) (a.toStr a.val).length (by rw [hread]),
      hsub, ih hargs junk]
    simp only [hread]
    have hlen : (catStrs (a :: args)).length = (a.toStr a.val).length + (catStrs args).length := by
      simp [catStrs]
    rw [hlen]
    rfl

theorem testBit_two_mul_add_zero (t : Bool) (a : Nat) :
    (2 * a + t.toNat).testBit 0 = t := by
  rw [Nat.testBit_zero]
  cases t <;> simp <;> omega

theorem testBit_two_mul_add_succ (t : Bool) (a i : Nat) :
    (2 * a + t.toNat).testBit (i + 1) = a.testBit i := by
  rw [Nat.testBit_succ]
  congr 1
  cases t <;> simp <;> omega

theorem land_two_mul_add (x y : Bool) (a b : Nat) :
    (2 * a + x.toNat) &&& (2 * b + y.toNat) = 2 * (a &&& b) + (x && y).toNat := by
  apply Nat.eq_of_testBit_eq
  intro i
  cases i with
  | zero =>
    rw [Nat.testBit_land, testBit_two_mul_add_zero, testBit_two_mul_add_zero,
      testBit_two_mul_add_zero]
  | succ i =>
    rw [Nat.testBit_land, testBit_two_mul_add_succ, testBit_two_mul_add_succ,
      testBit_two_mul_add_succ, Nat.testBit_land]

theorem land_self_eq (a : Nat) : a &&& a = a := by
  apply Nat.eq_of_testBit_eq
  intro i
  rw [Nat.testBit_land, Bool.and_self]

/-- A nonzero number whose bitwise and with its predecessor vanishes is a
power of two: the mathematical content of the raw-wrapper alignment check. -/
theorem pow2_of_land_pred : ∀ n : Nat, n ≠ 0 → n &&& (n - 1) = 0 → ∃ k, n = 2 ^ k := by
  intro n
  induction n using Nat.strong_induction_on with
  | _ n ih =>
    intro hn h
    rcases Nat.even_or_odd n with ⟨m, hm⟩ | ⟨m, hm⟩
    · have hmpos : m ≠ 0 := by omega
      have hpred : n - 1 = 2 * (m - 1) + (true : Bool).toNat := by
        simp only [Bool.toNat_true]
        omega
      have e1 : n = 2 * m + (false : Bool).toNat := by
        simp only [Bool.toNat_false]
        omega
      rw [hpred] at h
      rw [e1] at h
      rw [land_two_mul_add] at h
      simp only [Bool.false_and, Bool.toNat_false, Nat.add_zero] at h
      have h2 : m &&& (m - 1) = 0 := by omega
      obtain ⟨k, hk⟩ := ih m (by omega) hmpos h2
      refine ⟨k + 1, ?_⟩
      have hm2 : n = 2 * m := by omega
      rw [hm2, hk, pow_succ]
      ring
    · by_cases h1 : n = 1
      · exact ⟨0, by simp [h1]⟩
      · exfalso
        have hmpos : m ≠ 0 := by omega
        have hpred : n - 1 = 2 * m + (false : Bool).toNat := by
          simp only [Bool.toNat_false]
          omega
        have e1 : n = 2 * m + (true : Bool).toNat := by
          simp only [Bool.toNat_true]
          omega
        rw [hpred] at h
        rw [e1] at h
        rw [land_two_mul_add, land_self_eq] at h
        simp only [Bool.true_and, Bool.toNat_false, Nat.add_zero] at h
        omega

theorem cat_take_out (ws : List Writer) (h : ∀ w ∈ ws, WOk w) (mem : List Char) (L : Nat)
    (hL : L ≤ mem.length) (hR : catReq ws ≤ L) :
    (cat ws mem 0 L).2.take (catReq ws) = catOut ws := by
  have c := (cat_spec ws h mem 0 L (by omega)).2.2.2.2 hR
  rwa [List.drop_zero] at c

theorem cat_engineExact (ws : List Writer) (h : ∀ w ∈ ws, WOk w) :
    EngineExact (fun mem L => cat ws mem 0 L) (catReq ws) := by
  refine ⟨?_, ?_, ?_, ?_⟩
  · intro mem L hL
    exact (cat_spec ws h mem 0 L (by omega)).1
  · intro mem L hL
    exact (cat_spec ws h mem 0 L (by omega)).2.1
  · intro mem L hL
    have hd := (cat_spec ws h mem 0 L (by omega)).2.2.2.1
    rwa [Nat.zero_add] at hd
  · intro mem L mem' L' h1 h2 h3 h4
    rw [cat_take_out ws h mem L h1 h3, cat_take_out ws h mem' L' h2 h4]

theorem resizeTo_length (l : List Char) (n : Nat) : (resizeTo l n).length = n := by
  simp only [resizeTo, List.length_append, List.length_take, List.length_replicate]
  omega

theorem resizeTo_of_le (l : List Char) (n : Nat) (hn : n ≤ l.length) :
    resizeTo l n = l.take n := by
  rw [resizeTo, show n - l.length = 0 by omega]
  simp

/-- C1: for every argument list and every destination buffer length L, each
serialize engine (cat, catsep, format) writes no byte at or past offset L of
the buffer and returns the same required size R for every L (including
L = 0); calling it with a buffer of length R produces output byte-identical
to calling it with any buffer of length at least R — all under the
hypothesis that the per-type to_chars customization point itself satisfies
the sizing contract WOk.  The buffer of length L is the length-L prefix of
mem, so the drop-L component is exactly "no byte at or past offset L is
written". -/
theorem c1_exact_size (ws : List Writer) (sepw w0 : Writer) (fmtStr : List Char)
    (h : ∀ w ∈ ws, WOk w) (hsep : WOk sepw) (h0 : WOk w0) :
    EngineExact (fun mem L => cat ws mem 0 L) (catReq ws)
    ∧ EngineExact (fun mem L => catsep sepw w0 ws mem 0 L)
        (catReq (w0 :: sepInterleave sepw ws))
    ∧ EngineExact (fun mem L => format fmtStr ws mem 0 L)
        (catReq (fmtWriters fmtStr ws)) := by
  refine ⟨cat_engineExact ws h, ?_, ?_⟩
  · have hfun : (fun mem L => catsep sepw w0 ws mem 0 L)
        = fun mem L => cat (w0 :: sepInterleave sepw ws) mem 0 L := by
      funext mem L
      exact catsep_eq_cat sepw w0 ws mem 0 L
    rw [hfun]
    refine cat_engineExact _ ?_
    intro w' hw'
    rcases List.mem_cons.mp hw' with h1 | h1
    · exact h1 ▸ h0
    · exact sepInterleave_wok sepw hsep ws h w' h1
  · have hfun : (fun mem L => format fmtStr ws mem 0 L)
        = fun mem L => cat (fmtWriters fmtStr ws) mem 0 L := by
      funext mem L
      exact format_eq_cat ws fmtStr mem 0 L
    rw [hfun]
    exact cat_engineExact _ (fun w' hw' => fmtWriters_wok ws h fmtStr w' hw')

theorem c1_exact_size_witness :
    (cat [strWriter (String.toList "ab"), strWriter (String.toList "c")]
        (String.toList "XYZWV") 0 2).1 = 3
    ∧ (cat [strWriter (String.toList "ab"), strWriter (String.toList "c")]
        (String.toList "XYZWV") 0 2).2.drop 2 = String.toList "ZWV"
    ∧ (cat [strWriter (String.toList "ab"), strWriter (String.toList "c")]
        (String.toList "PQR") 0 3).2.take 3
      = (cat [strWriter (String.toList "ab"), strWriter (String.toList "c")]
        (String.toList "PQRS") 0 4).2.take 3 := by
  have h : ∀ w ∈ [strWriter (String.toList "ab"), strWriter (String.toList "c")], WOk w := by
    intro w hw
    rcases List.mem_cons.mp hw with h1 | h1
    · exact h1 ▸ strWriter_wok _
    · rcases List.mem_cons.mp h1 with h2 | h2
      · exact h2 ▸ strWriter_wok _
      · simp at h2
  have main := c1_exact_size [strWriter (String.toList "ab"), strWriter (String.toList "c")]
    (strWriter [',']) (strWriter (String.toList "x")) (String.toList "f")
    h (strWriter_wok _) (strWriter_wok _)
  refine ⟨?_, ?_, ?_⟩
  · exact (main.1.1 (String.toList "XYZWV") 2 (by decide)).trans (by decide)
  · exact (main.1.2.2.1 (String.toList "XYZWV") 2 (by decide)).trans (by decide)
  · exact (show catReq [strWriter (String.toList "ab"), strWriter (String.toList "c")] = 3
        by decide)
      ▸ main.1.2.2.2 (String.toList "PQR") 3 (String.toList "PQRS") 4
        (by decide) (by decide) (by decide) (by decide)

/-- C4: for every argument list whose to_chars results satisfy the sizing
contract, the overwrite-mode growth adapter catrs terminates within two
iterations of the retry loop for any fuel of at least 2 (with a
fuel-independent result), performs exactly one retry and only when the
store's initial capacity was smaller than the required size R, and on return
the container's size is exactly R and its content equals the output of a
fixed-buffer cat call with any buffer of length at least R. -/
theorem c4_catrs_two_pass (ws : List Writer) (h : ∀ w ∈ ws, WOk w) (cont : List Char) :
    ∀ fuel, 2 ≤ fuel →
      catrs ws fuel cont = some (catOut ws, if catReq ws > cont.length then 2 else 1)
      ∧ (catOut ws).length = catReq ws
      ∧ ∀ big : List Char, catReq ws ≤ big.length →
          catOut ws = (cat ws big 0 big.length).2.take (catReq ws) := by
  intro fuel hfuel
  obtain ⟨f, rfl⟩ : ∃ f, fuel = f + 2 := ⟨fuel - 2, by omega⟩
  have hr1 : (cat ws cont 0 cont.length).1 = catReq ws :=
    (cat_spec ws h cont 0 cont.length (by omega)).1
  have hlen1 : (cat ws cont 0 cont.length).2.length = cont.length :=
    (cat_spec ws h cont 0 cont.length (by omega)).2.1
  refine ⟨?_, catOut_length ws h, fun big hbig => (cat_take_out ws h big big.length le_rfl hbig).symm⟩
  by_cases hfit : catReq ws ≤ cont.length
  · have htake : (cat ws cont 0 cont.length).2.take (catReq ws) = catOut ws :=
      cat_take_out ws h cont cont.length le_rfl hfit
    have hres : resizeTo (cat ws cont 0 cont.length).2 (catReq ws) = catOut ws := by
      rw [resizeTo_of_le _ _ (by omega), htake]
    show catrsLoop ws (f + 1 + 1) cont = _
    rw [catrsLoop]
    simp only [catrsStep, hr1, hres]
    rw [if_neg (by omega), if_neg (by omega)]
  · have hcont1 : resizeTo (cat ws cont 0 cont.length).2 (cat ws cont 0 cont.length).1
        = resizeTo (cat ws cont 0 cont.length).2 (catReq ws) := by rw [hr1]
    set cont1 := resizeTo (cat ws cont 0 cont.length).2 (catReq ws) with hcont1def
    have hc1len : cont1.length = catReq ws := resizeTo_length _ _
    have hr2 : (cat ws cont1 0 cont1.length).1 = catReq ws :=
      (cat_spec ws h cont1 0 cont1.length (by omega)).1
    have hl2 : (cat ws cont1 0 cont1.length).2.length = cont1.length :=
      (cat_spec ws h cont1 0 cont1.length (by omega)).2.1
    have htake2 : (cat ws cont1 0 cont1.length).2.take (catReq ws) = catOut ws :=
      cat_take_out ws h cont1 cont1.length le_rfl (by omega)
    have hres2 : resizeTo (cat ws cont1 0 cont1.length).2 (catReq ws) = catOut ws := by
      rw [resizeTo_of_le _ _ (by omega), htake2]
    have hstep2 : catrsLoop ws (f + 1) cont1 = some (catOut ws, 1) := by
      rw [catrsLoop]
      simp only [catrsStep, hr2, hres2]
      rw [if_neg (by omega)]
    show catrsLoop ws (f + 1 + 1) cont = _
    rw [catrsLoop]
    simp only [catrsStep, hr1, hcont1, ← hcont1def]
    rw [if_pos (by omega), hstep2, if_pos (by omega)]

theorem c4_catrs_two_pass_witness :
    catrs [strWriter (String.toList "ab"), strWriter (String.toList "c")] 2 []
      = some (String.toList "abc", 2) := by
  have h : ∀ w ∈ [strWriter (String.toList "ab"), strWriter (String.toList "c")], WOk w := by
    intro w hw
    rcases List.mem_cons.mp hw with h1 | h1
    · exact h1 ▸ strWriter_wok _
    · rcases List.mem_cons.mp h1 with h2 | h2
      · exact h2 ▸ strWriter_wok _
      · simp at h2
  have main := (c4_catrs_two_pass
    [strWriter (String.toList "ab"), strWriter (String.toList "c")] h [] 2 (by omega)).1
  exact main.trans (by decide)

/-- C5: no serialize operation aborts when the destination buffer is too
small: the trimmed-view shapes cat_sub, catsep_sub and format_sub yield a
view of length min R L for every buffer (in particular they yield a value
for undersized buffers instead of aborting, the C4_CHECK being modelled per
spec section 7 as a recorded diagnostic), and the diagnostic is false
exactly when the buffer was undersized, which is visible to the caller only
through the required size R exceeding the buffer's length. -/
theorem c5_sub_no_abort (ws : List Writer) (sepw w0 : Writer) (fmtStr : List Char)
    (h : ∀ w ∈ ws, WOk w) (hsep : WOk sepw) (h0 : WOk w0) :
    (∀ mem : List Char, (cat_sub ws mem).2.length = min (catReq ws) mem.length
      ∧ ((cat_sub ws mem).1 = false ↔ mem.length < catReq ws))
    ∧ (∀ mem : List Char, (catsep_sub sepw w0 ws mem).2.length
          = min (catReq (w0 :: sepInterleave sepw ws)) mem.length
      ∧ ((catsep_sub sepw w0 ws mem).1 = false
          ↔ mem.length < catReq (w0 :: sepInterleave sepw ws)))
    ∧ (∀ mem : List Char, (format_sub fmtStr ws mem).2.length
          = min (catReq (fmtWriters fmtStr ws)) mem.length
      ∧ ((format_sub fmtStr ws mem).1 = false
          ↔ mem.length < catReq (fmtWriters fmtStr ws))) := by
  have hall : ∀ w' ∈ w0 :: sepInterleave sepw ws, WOk w' := by
    intro w' hw'
    rcases List.mem_cons.mp hw' with h1 | h1
    · exact h1 ▸ h0
    · exact sepInterleave_wok sepw hsep ws h w' h1
  refine ⟨?_, ?_, ?_⟩
  · intro mem
    have hr1 : (cat ws mem 0 mem.length).1 = catReq ws :=
      (cat_spec ws h mem 0 mem.length (by omega)).1
    have hl1 : (cat ws mem 0 mem.length).2.length = mem.length :=
      (cat_spec ws h mem 0 mem.length (by omega)).2.1
    constructor
    · simp only [cat_sub, hr1, List.length_take, hl1]
      omega
    · simp only [cat_sub, hr1, decide_eq_false_iff_not]
      omega
  · intro mem
    have heq : catsep sepw w0 ws mem 0 mem.length
        = cat (w0 :: sepInterleave sepw ws) mem 0 mem.length :=
      catsep_eq_cat sepw w0 ws mem 0 mem.length
    have hr1 : (cat (w0 :: sepInterleave sepw ws) mem 0 mem.length).1
        = catReq (w0 :: sepInterleave sepw ws) :=
      (cat_spec _ hall mem 0 mem.length (by omega)).1
    have hl1 : (cat (w0 :: sepInterleave sepw ws) mem 0 mem.length).2.length = mem.length :=
      (cat_spec _ hall mem 0 mem.length (by omega)).2.1
    constructor
    · simp only [catsep_sub, heq, hr1, List.length_take, hl1]
      omega
    · simp only [catsep_sub, heq, hr1, decide_eq_false_iff_not]
      omega
  · intro mem
    have heq : format fmtStr ws mem 0 mem.length
        = cat (fmtWriters fmtStr ws) mem 0 mem.length :=
      format_eq_cat ws fmtStr mem 0 mem.length
    have hfw : ∀ w' ∈ fmtWriters fmtStr ws, WOk w' := fmtWriters_wok ws h fmtStr
    have hr1 : (cat (fmtWriters fmtStr ws) mem 0 mem.length).1 = catReq (fmtWriters fmtStr ws) :=
      (cat_spec _ hfw mem 0 mem.length (by omega)).1
    have hl1 : (cat (fmtWriters fmtStr ws) mem 0 mem.length).2.length = mem.length :=
      (cat_spec _ hfw mem 0 mem.length (by omega)).2.1
    constructor
    · simp only [format_sub, heq, hr1, List.length_take, hl1]
      omega
    · simp only [format_sub, heq, hr1, decide_eq_false_iff_not]
      omega

theorem c5_sub_no_abort_witness :
    (cat_sub [strWriter (String.toList "ab"), strWriter (String.toList "c")]
        (String.toList "XY")).2.length = 2
    ∧ (cat_sub [strWriter (String.toList "ab"), strWriter (String.toList "c")]
        (String.toList "XY")).1 = false := by
  have h : ∀ w ∈ [strWriter (String.toList "ab"), strWriter (String.toList "c")], WOk w := by
    intro w hw
    rcases List.mem_cons.mp hw with h1 | h1
    · exact h1 ▸ strWriter_wok _
    · rcases List.mem_cons.mp h1 with h2 | h2
      · exact h2 ▸ strWriter_wok _
      · simp at h2
  have main := (c5_sub_no_abort [strWriter (String.toList "ab"), strWriter (String.toList "c")]
    (strWriter [',']) (strWriter (String.toList "x")) (String.toList "f")
    h (strWriter_wok _) (strWriter_wok _)).1 (String.toList "XY")
  exact ⟨main.1.trans (by decide), main.2.mpr (by decide)⟩

/-- C6: format substitutes arguments positionally at each placeholder token
scanned left to right (the engine runs exactly the writer sequence
fmtWriters, literal spans interleaved with arguments in order); when the
template holds no further token the remaining arguments are silently
ignored; and on the concrete example the three-argument call produces
exactly "the partier drank 5 beers" while the two-argument call leaves the
third placeholder rendered as a literal token in the output. -/
theorem c6_format_positional :
    (∀ (fmtStr : List Char) (ws : List Writer) (mem : List Char) (off len : Nat),
      format fmtStr ws mem off len = cat (fmtWriters fmtStr ws) mem off len)
    ∧ (∀ fmtStr : List Char, findFmt fmtStr = none →
        ∀ (w : Writer) (ws : List Writer) (mem : List Char) (off len : Nat),
          format fmtStr (w :: ws) mem off len = format fmtStr [] mem off len)
    ∧ ((format tmplBeer beerWriters (List.replicate 30 'x') 0 30).1 = 25
      ∧ (format tmplBeer beerWriters (List.replicate 30 'x') 0 30).2.take 25
          = String.toList "the partier drank 5 beers")
    ∧ ((format tmplBeer (beerWriters.take 2) (List.replicate 30 'x') 0 30).1 = 22
      ∧ (format tmplBeer (beerWriters.take 2) (List.replicate 30 'x') 0 30).2.take 22
          = String.toList "the partier drank 5 " ++ [braceO, braceC]) := by
  refine ⟨fun fmtStr ws mem off len => format_eq_cat ws fmtStr mem off len, ?_, ?_, ?_⟩
  · intro fmtStr hf w ws mem off len
    simp only [format, hf]
  · exact ⟨by decide, by decide⟩
  · exact ⟨by decide, by decide⟩

theorem c6_format_positional_witness :
    format (String.toList "no token") [strWriter (String.toList "zz")]
        (List.replicate 9 'x') 0 9
      = format (String.toList "no token") [] (List.replicate 9 'x') 0 9 := by
  exact c6_format_positional.2.1 (String.toList "no token") (by decide)
    (strWriter (String.toList "zz")) [] (List.replicate 9 'x') 0 9

/-- C8: catsep writes the first argument with no preceding separator and the
separator exactly once before each subsequent argument (it runs exactly the
writer sequence with the separator interleaved before every tail argument);
a one-argument call degenerates to a plain cat of that argument with no
separator; the zero-argument separated engine returns required size 0 and
writes nothing; and the concrete example produces exactly "a,b,c" with
required size 5. -/
theorem c8_catsep_placement :
    (∀ (sepw w0 : Writer) (ws : List Writer) (mem : List Char) (off len : Nat),
      catsep sepw w0 ws mem off len = cat (w0 :: sepInterleave sepw ws) mem off len)
    ∧ (∀ (sepw w0 : Writer) (mem : List Char) (off len : Nat),
      catsep sepw w0 [] mem off len = cat [w0] mem off len)
    ∧ (∀ (sepw : Writer) (mem : List Char) (off len : Nat),
      catsep_more sepw [] mem off len = (0, mem))
    ∧ ((catsep (strWriter [',']) (strWriter (String.toList "a"))
          [strWriter (String.toList "b"), strWriter (String.toList "c")]
          (List.replicate 8 'x') 0 8).1 = 5
      ∧ (catsep (strWriter [',']) (strWriter (String.toList "a"))
          [strWriter (String.toList "b"), strWriter (String.toList "c")]
          (List.replicate 8 'x') 0 8).2.take 5 = String.toList "a,b,c") := by
  refine ⟨catsep_eq_cat, ?_, ?_, by decide, by decide⟩
  · intro sepw w0 mem off len
    rw [catsep_eq_cat]
    rfl
  · intro sepw mem off len
    rfl

theorem uncatsep_none {α σ : Type} (rsep : Reader σ) (rd0 : Reader α) (v0 : α)
    (rest : List (Reader α × α)) (buf : List Char) (sep : σ)
    (h : (rd0 buf v0).2 = none) :
    uncatsep rsep rd0 v0 rest buf sep
      = (none, sep, (rd0 buf v0).1 :: rest.map Prod.snd, buf) := by
  simp only [uncatsep, h]

theorem uncatsep_some {α σ : Type} (rsep : Reader σ) (rd0 : Reader α) (v0 : α)
    (rest : List (Reader α × α)) (buf : List Char) (sep : σ) (ret0 : Nat)
    (h : (rd0 buf v0).2 = some ret0) :
    uncatsep rsep rd0 v0 rest buf sep
      = ((uncatsep_more rsep rest (subAdvance buf ret0) sep).1.map fun m => ret0 + m,
         (uncatsep_more rsep rest (subAdvance buf ret0) sep).2.1,
         (rd0 buf v0).1 :: (uncatsep_more rsep rest (subAdvance buf ret0) sep).2.2.1,
         (uncatsep_more rsep rest (subAdvance buf ret0) sep).2.2.2) := by
  simp only [uncatsep, h]
  cases hm : (uncatsep_more rsep rest (subAdvance buf ret0) sep).1 <;> simp [hm]

/-- C2: writing a tuple of values with cat into a buffer of at least the
required size and reading the buffer back with uncat into fresh variables
succeeds — it returns the consumed count equal to the required size, not the
not-found sentinel — and recovers every value, under the hypothesis that
each position's to_chars/from_chars_first pair is round-trip-consistent in
the prefix-stable sense RTOk. -/
theorem c2_cat_uncat_roundtrip {α : Type} (args : List (RTArg α)) (h : ∀ a ∈ args, RTOk a)
    (mem : List Char)
    (hL : catReq (args.map fun a => strWriter (a.toStr a.val)) ≤ mem.length) :
    (uncat (args.map fun a => (a.rd, a.v0))
        (cat (args.map fun a => strWriter (a.toStr a.val)) mem 0 mem.length).2).1
      = some (catReq (args.map fun a => strWriter (a.toStr a.val)))
    ∧ (uncat (args.map fun a => (a.rd, a.v0))
        (cat (args.map fun a => strWriter (a.toStr a.val)) mem 0 mem.length).2).2.1
      = args.map fun a => a.val := by
  set ws := args.map fun a => strWriter (a.toStr a.val) with hws
  have hwok : ∀ w ∈ ws, WOk w := by
    intro w hw
    rw [hws] at hw
    obtain ⟨a, _, rfl⟩ := List.mem_map.mp hw
    exact strWriter_wok _
  have hcatout : catOut ws = catStrs args := by
    simp only [catOut, catStrs, hws, List.map_map]
    have hfe : (wout ∘ fun a : RTArg α => strWriter (a.toStr a.val))
        = fun a : RTArg α => a.toStr a.val := by
      funext a
      exact wout_strWriter _
    rw [hfe]
  have hreq : catReq ws = (catStrs args).length := by
    rw [← catOut_length ws hwok, hcatout]
  have hwritten : (cat ws mem 0 mem.length).2
      = catStrs args ++ (cat ws mem 0 mem.length).2.drop (catReq ws) := by
    conv_lhs => rw [← List.take_append_drop (catReq ws) (cat ws mem 0 mem.length).2]
    rw [cat_take_out ws hwok mem mem.length le_rfl hL, hcatout]
  rw [hwritten, uncat_of_concat args h _]
  exact ⟨by rw [hreq], rfl⟩

theorem c2_cat_uncat_roundtrip_witness :
    (uncat ([rtDigit 7, rtDigit 3].map fun a => (a.rd, a.v0))
        (cat ([rtDigit 7, rtDigit 3].map fun a => strWriter (a.toStr a.val))
          (List.replicate 4 'x') 0 4).2).1 = some 2
    ∧ (uncat ([rtDigit 7, rtDigit 3].map fun a => (a.rd, a.v0))
        (cat ([rtDigit 7, rtDigit 3].map fun a => strWriter (a.toStr a.val))
          (List.replicate 4 'x') 0 4).2).2.1 = [7, 3] := by
  have h : ∀ a ∈ [rtDigit 7, rtDigit 3], RTOk a := by
    intro a ha
    rcases List.mem_cons.mp ha with h1 | h1
    · subst h1
      intro rest v
      rfl
    · rcases List.mem_cons.mp h1 with h2 | h2
      · subst h2
        intro rest v
        rfl
      · simp at h2
  have main := c2_cat_uncat_roundtrip [rtDigit 7, rtDigit 3] h (List.replicate 4 'x')
    (by decide)
  exact ⟨main.1.trans (by decide), main.2.trans (by decide)⟩

/-- C3: in each of the three parse engines, if the k-th sub-parse returns
the not-found sentinel then the whole run returns the same sentinel and the
output arguments past position k keep their initial values (arguments parsed
before k may retain partially written values; the failing one may have been
scribbled on).  The five conjuncts cover uncat, uncatsep with the failure at
an argument of the tail, at a separator, and at the first argument, and
unformat. -/
theorem c3_short_circuit :
    (∀ (α : Type) (pre post : List (Reader α × α)) (rd : Reader α) (v : α)
        (buf : List Char) (n : Nat),
      (uncat pre buf).1 = some n →
      (rd (uncat pre buf).2.2 v).2 = none →
      (uncat (pre ++ (rd, v) :: post) buf).1 = none
      ∧ (uncat (pre ++ (rd, v) :: post) buf).2.1.drop (pre.length + 1) = post.map Prod.snd)
    ∧ (∀ (α σ : Type) (rsep : Reader σ) (rd0 : Reader α) (v0 : α)
        (pre post : List (Reader α × α)) (rd : Reader α) (v : α)
        (buf : List Char) (sep : σ) (ret0 n ret1 : Nat),
      (rd0 buf v0).2 = some ret0 →
      (uncatsep_more rsep pre (subAdvance buf ret0) sep).1 = some n →
      (rsep (uncatsep_more rsep pre (subAdvance buf ret0) sep).2.2.2
         (uncatsep_more rsep pre (subAdvance buf ret0) sep).2.1).2 = some ret1 →
      (rd (subAdvance (uncatsep_more rsep pre (subAdvance buf ret0) sep).2.2.2 ret1) v).2
          = none →
      (uncatsep rsep rd0 v0 (pre ++ (rd, v) :: post) buf sep).1 = none
      ∧ (uncatsep rsep rd0 v0 (pre ++ (rd, v) :: post) buf sep).2.2.1.drop (pre.length + 2)
          = post.map Prod.snd)
    ∧ (∀ (α σ : Type) (rsep : Reader σ) (rd0 : Reader α) (v0 : α)
        (pre post : List (Reader α × α)) (rd : Reader α) (v : α)
        (buf : List Char) (sep : σ) (ret0 n : Nat),
      (rd0 buf v0).2 = some ret0 →
      (uncatsep_more rsep pre (subAdvance buf ret0) sep).1 = some n →
      (rsep (uncatsep_more rsep pre (subAdvance buf ret0) sep).2.2.2
         (uncatsep_more rsep pre (subAdvance buf ret0) sep).2.1).2 = none →
      (uncatsep rsep rd0 v0 (pre ++ (rd, v) :: post) buf sep).1 = none
      ∧ (uncatsep rsep rd0 v0 (pre ++ (rd, v) :: post) buf sep).2.2.1.drop (pre.length + 1)
          = v :: post.map Prod.snd)
    ∧ (∀ (α σ : Type) (rsep : Reader σ) (rd0 : Reader α) (v0 : α)
        (rest : List (Reader α × α)) (buf : List Char) (sep : σ),
      (rd0 buf v0).2 = none →
      (uncatsep rsep rd0 v0 rest buf sep).1 = none
      ∧ (uncatsep rsep rd0 v0 rest buf sep).2.2.1.drop 1 = rest.map Prod.snd)
    ∧ (∀ (α : Type) (pre post : List (Reader α × α)) (rd : Reader α) (v : α)
        (buf fmtStr : List Char) (n pos : Nat),
      (unformat pre buf fmtStr).1 = some n →
      findFmt (unformat pre buf fmtStr).2.2.2 = some pos →
      (rd (subAdvance (unformat pre buf fmtStr).2.2.1 pos) v).2 = none →
      (unformat (pre ++ (rd, v) :: post) buf fmtStr).1 = none
      ∧ (unformat (pre ++ (rd, v) :: post) buf fmtStr).2.1.drop (pre.length + 1)
          = post.map Prod.snd) := by
  refine ⟨?_, ?_, ?_, ?_, ?_⟩
  · intro α pre post rd v buf n h1 h2
    exact uncat_fail_tail rd v post pre buf n h1 h2
  · intro α σ rsep rd0 v0 pre post rd v buf sep ret0 n ret1 h0 h1 h2 h3
    obtain ⟨g1, g2⟩ := uncatsep_more_fail_tail_arg rsep rd v post pre
      (subAdvance buf ret0) sep n ret1 h1 h2 h3
    rw [uncatsep_some rsep rd0 v0 (pre ++ (rd, v) :: post) buf sep ret0 h0]
    refine ⟨by rw [g1]; rfl, ?_⟩
    simp only
    rw [show pre.length + 2 = (pre.length + 1) + 1 by rfl, List.drop_succ_cons]
    exact g2
  · intro α σ rsep rd0 v0 pre post rd v buf sep ret0 n h0 h1 h2
    obtain ⟨g1, g2⟩ := uncatsep_more_fail_tail_sep rsep rd v post pre
      (subAdvance buf ret0) sep n h1 h2
    rw [uncatsep_some rsep rd0 v0 (pre ++ (rd, v) :: post) buf sep ret0 h0]
    refine ⟨by rw [g1]; rfl, ?_⟩
    simp only
    rw [show pre.length + 1 = pre.length + 1 by rfl, List.drop_succ_cons]
    exact g2
  · intro α σ rsep rd0 v0 rest buf sep h0
    rw [uncatsep_none rsep rd0 v0 rest buf sep h0]
    exact ⟨rfl, by simp⟩
  · intro α pre post rd v buf fmtStr n pos h1 h2 h3
    exact unformat_fail_tail rd v post pre buf fmtStr n pos h1 h2 h3

theorem c3_short_circuit_witness :
    ((uncat [(rdOne, 0), (rdFail, 7), (rdOne, 9)] (String.toList "AB")).1 = none
      ∧ (uncat [(rdOne, 0), (rdFail, 7), (rdOne, 9)] (String.toList "AB")).2.1.drop 2 = [9])
    ∧ ((uncatsep rdOne rdOne 0 [(rdFail, 7)] (String.toList "AB") 0).1 = none
      ∧ (uncatsep rdOne rdOne 0 [(rdFail, 7)] (String.toList "AB") 0).2.2.1.drop 2 = [])
    ∧ ((uncatsep rdFail rdOne 0 [(rdOne, 7)] (String.toList "AB") 0).1 = none
      ∧ (uncatsep rdFail rdOne 0 [(rdOne, 7)] (String.toList "AB") 0).2.2.1.drop 1 = [7])
    ∧ ((uncatsep rdOne rdFail 0 [(rdOne, 5)] (String.toList "A") 0).1 = none
      ∧ (uncatsep rdOne rdFail 0 [(rdOne, 5)] (String.toList "A") 0).2.2.1.drop 1 = [5])
    ∧ ((unformat [(rdFail, 7)] (String.toList "A") [braceO, braceC]).1 = none
      ∧ (unformat [(rdFail, 7)] (String.toList "A") [braceO, braceC]).2.1.drop 1 = []) := by
  refine ⟨?_, ?_, ?_, ?_, ?_⟩
  · exact c3_short_circuit.1 Nat [(rdOne, 0)] [(rdOne, 9)] rdFail 7 (String.toList "AB") 1
      (by decide) (by decide)
  · exact c3_short_circuit.2.1 Nat Nat rdOne rdOne 0 [] [] rdFail 7 (String.toList "AB") 0
      1 0 1 (by decide) (by decide) (by decide) (by decide)
  · exact c3_short_circuit.2.2.1 Nat Nat rdFail rdOne 0 [] [] rdOne 7 (String.toList "AB") 0
      1 0 (by decide) (by decide) (by decide)
  · exact c3_short_circuit.2.2.2.1 Nat Nat rdOne rdFail 0 [(rdOne, 5)] (String.toList "A") 0
      (by decide)
  · exact c3_short_circuit.2.2.2.2 Nat [] [] rdFail 7 (String.toList "A") [braceO, braceC]
      0 0 (by decide) (by decide) (by decide)

/-- C7 counterexample: on input "XY5" against the template "ab" followed by
the placeholder token, parsing succeeds although the input differs from the
template's literal span (that half of the claim holds), yet the run consumes
3 characters while the parser at the only placeholder consumed 1: the
literal (non-placeholder) span consumed 2 characters of the input, refuting
"only placeholder positions consume characters from the input buffer". -/
theorem c7_only_placeholder_counterexample :
    String.toList "XY" ≠ String.toList "ab"
    ∧ (unformat [(rdOne, 0)] (String.toList "XY5")
        (String.toList "ab" ++ [braceO, braceC])).1 = some 3
    ∧ (rdOne ((String.toList "XY5").drop 2) 0).2 = some 1
    ∧ (3 : Nat) ≠ 1 := by
  exact ⟨by decide, by decide, by decide, by decide⟩

/-- C7 amended: during unformat the literal spans of the template are never
compared against — or even read from — the input: the whole result is
unchanged under any replacement of the input bytes covering a literal span,
and parsing never fails because input text differs from the template's
literal text; however a literal span of length pos consumes exactly pos
characters from the input, so the consumed count decomposes as the literal
length plus the placeholder parser's count plus the rest. -/
theorem c7_literal_never_compared {α : Type} (rd : Reader α) (v : α)
    (rest : List (Reader α × α)) (fmtStr : List Char) (pos : Nat)
    (hpos : findFmt fmtStr = some pos) (lit lit' tail : List Char)
    (hl : lit.length = pos) (hl' : lit'.length = pos) :
    unformat ((rd, v) :: rest) (lit ++ tail) fmtStr
      = unformat ((rd, v) :: rest) (lit' ++ tail) fmtStr
    ∧ ∀ (a : Nat) (v1 : α), rd tail v = (v1, some a) →
        (unformat ((rd, v) :: rest) (lit ++ tail) fmtStr).1
          = (unformat rest (subAdvance tail a) (fmtStr.drop (pos + 2))).1.map
              (fun m => pos + a + m) := by
  have hsub : subAdvance (lit ++ tail) pos = tail := by
    rw [subAdvance, if_pos (by simp only [List.length_append, ge_iff_le]; omega),
      List.drop_left' hl]
  have hsub' : subAdvance (lit' ++ tail) pos = tail := by
    rw [subAdvance, if_pos (by simp only [List.length_append, ge_iff_le]; omega),
      List.drop_left' hl']
  constructor
  · cases hra : (rd tail v).2 with
    | none =>
      rw [unformat_cons_fail rd v rest _ fmtStr pos hpos (by rw [hsub]; exact hra),
        unformat_cons_fail rd v rest _ fmtStr pos hpos (by rw [hsub']; exact hra),
        hsub, hsub']
    | some num =>
      rw [unformat_cons_ok rd v rest _ fmtStr pos num hpos (by rw [hsub]; exact hra),
        unformat_cons_ok rd v rest _ fmtStr pos num hpos (by rw [hsub']; exact hra),
        hsub, hsub']
  · intro a v1 hra
    rw [unformat_cons_ok rd v rest _ fmtStr pos a hpos (by rw [hsub, hra]), hsub]

theorem c7_literal_never_compared_witness :
    unformat [(rdOne, 0)] (String.toList "XY5") (String.toList "ab" ++ [braceO, braceC])
      = unformat [(rdOne, 0)] (String.toList "QW5") (String.toList "ab" ++ [braceO, braceC])
    ∧ (unformat [(rdOne, 0)] (String.toList "XY5")
        (String.toList "ab" ++ [braceO, braceC])).1 = some 3 := by
  have main := c7_literal_never_compared rdOne 0 [] (String.toList "ab" ++ [braceO, braceC])
    2 (by decide) (String.toList "XY") (String.toList "QW") (String.toList "5")
    (by decide) (by decide)
  exact ⟨main.1, (main.2 1 53 (by decide)).trans (by decide)⟩

/-- C9: constructing a raw wrapper with an alignment that is not a nonzero
power of two — for example alignment 3 — is rejected at construction time,
before the blob is inspected, and every successfully constructed
raw_wrapper_ holds a nonzero power-of-two alignment. -/
theorem c9_raw_alignment :
    (∀ data : List Nat, mkRawWrapper data 3 = none)
    ∧ (∀ (data : List Nat) (al : Nat) (w : raw_wrapper_),
        mkRawWrapper data al = some w → 0 < w.alignment ∧ ∃ k, w.alignment = 2 ^ k) := by
  constructor
  · intro data
    rfl
  · intro data al w hw
    rw [mkRawWrapper] at hw
    by_cases hc : alignCondition al = true
    · rw [if_pos hc] at hw
      obtain rfl : (⟨data, al⟩ : raw_wrapper_) = w := Option.some.inj hw
      simp only [alignCondition, Bool.and_eq_true, decide_eq_true_eq] at hc
      exact ⟨hc.1, pow2_of_land_pred al (by omega) hc.2⟩
    · rw [if_neg hc] at hw
      cases hw

theorem c9_raw_alignment_witness :
    mkRawWrapper [9] 3 = none
    ∧ (0 < (4 : Nat) ∧ ∃ k, (4 : Nat) = 2 ^ k) := by
  exact ⟨c9_raw_alignment.1 [9],
    c9_raw_alignment.2 [5] 4 ⟨[5], 4⟩ rfl⟩

/-- C10: the boolalpha wrapper normalizes the wrapped value to exactly true
or false at construction (val_ ? true : false), so its to_chars always
writes exactly one of the two literals, and it writes "true" exactly for the
values that convert to nonzero — for any wrapped type, the contextual
conversion being the truthiness function. -/
theorem c10_boolalpha_normalizes :
    (∀ (α : Type) (truthy : α → Bool) (v : α) (strict : Bool),
      (boolalpha truthy v strict).val = truthy v)
    ∧ (∀ f : boolalpha_,
        boolalphaStr f = String.toList "true" ∨ boolalphaStr f = String.toList "false")
    ∧ (∀ (α : Type) (truthy : α → Bool) (v : α) (strict : Bool),
        boolalphaStr (boolalpha truthy v strict) = String.toList "true" ↔ truthy v = true)
    ∧ (∀ f : boolalpha_, wout (boolalphaWriter f) = boolalphaStr f
        ∧ wreq (boolalphaWriter f) = (boolalphaStr f).length) := by
  refine ⟨?_, ?_, ?_, ?_⟩
  · intro α truthy v strict
    cases h : truthy v <;> simp [boolalpha, h]
  · intro f
    cases h : f.val
    · right
      simp [boolalphaStr, h]
    · left
      simp [boolalphaStr, h]
  · intro α truthy v strict
    cases h : truthy v <;> simp [boolalpha, h, boolalphaStr]
  · intro f
    exact ⟨wout_strWriter _, rfl⟩

end C4

